import Mathlib

/-!
Verification of the unused-declaration elimination engine of the caide C++
inliner (src/src/optimizer.cpp, src/src/optimizer.h, src/src/SmartRewriter.h),
as a shallow embedding.  Clang entities (declarations, source locations,
namespaces) are abstracted by natural-number identifiers together with the
attribute functions the embedded code actually consults; fallible lookups
(raw comments, token searches, buffers) are modelled with Option.
-/

namespace CaideInliner

/-! ## Dependencies collector: root declarations
(optimizer.cpp, DependenciesCollector::VisitDecl lines 219-255 and
DependenciesCollector::VisitFunctionDecl lines 414-420) -/

/-- Abstraction of a clang declaration node, keeping the attributes that
VisitDecl and VisitFunctionDecl consult when building srcInfo.declsToKeep.
locStartInMainFile models sourceManager.isInMainFile(decl->getLocStart()),
which tests the expansion location of the declaration start.  rawComment is
the text of the attached raw comment; none models both the absence of a
comment (getRawCommentForDeclNoCache returning null) and a failure of
getCharacterData on either comment bound, in all of which cases VisitDecl
returns early. -/
structure CDecl where
  declId : Nat
  isFunctionDecl : Bool
  isMain : Bool
  locStartInMainFile : Bool
  rawComment : Option String
deriving DecidableEq

/-- Whether the character list given first occurs at the start of the second. -/
def beginsWith : List Char → List Char → Bool
  | [], _ => true
  | _ :: _, [] => false
  | a :: as, b :: bs => a == b && beginsWith as bs

/-- Whether the needle occurs as a contiguous substring of the haystack;
models StringRef.find(needle) != npos in VisitDecl. -/
def hasInfix (needle : List Char) : List Char → Bool
  | [] => beginsWith needle []
  | c :: rest => beginsWith needle (c :: rest) || hasInfix needle rest

/-- The literal token VisitDecl scans raw comments for. -/
def caideKeepComment : String := "caide keep"

/-- VisitDecl (optimizer.cpp lines 219-255): a declaration is inserted into
declsToKeep exactly when its start location lies in the main file and its
attached raw comment text contains the substring "caide keep". -/
def visitDeclKeeps (d : CDecl) : Bool :=
  d.locStartInMainFile &&
    match d.rawComment with
    | none => false
    | some text => hasInfix caideKeepComment.toList text.toList

/-- VisitFunctionDecl (optimizer.cpp lines 414-420): a function declaration
for which isMain holds is inserted into declsToKeep. -/
def visitFunctionDeclKeeps (d : CDecl) : Bool :=
  d.isFunctionDecl && d.isMain

/-- One step of the collector traversal over a declaration node: the visitor
dispatches VisitDecl and, for function declarations, VisitFunctionDecl; these
are the only two places inserting into the declsToKeep set.  The set is
modelled as a list accumulated in traversal order (each AST node is visited
once, and the two inserts concern the same node, so one append suffices). -/
def collectStep (acc : List CDecl) (d : CDecl) : List CDecl :=
  if visitFunctionDeclKeeps d || visitDeclKeeps d then acc ++ [d] else acc

/-- The declsToKeep set produced by the dependencies collector over the
translation unit's declarations in traversal order. -/
def declsToKeep (tu : List CDecl) : List CDecl :=
  tu.foldl collectStep []

lemma mem_foldl_collectStep (tu : List CDecl) :
    ∀ (acc : List CDecl) (d : CDecl),
      d ∈ tu.foldl collectStep acc ↔
        d ∈ acc ∨ (d ∈ tu ∧ (visitFunctionDeclKeeps d || visitDeclKeeps d) = true) := by
  induction tu with
  | nil => intro acc d; simp
  | cons t rest ih =>
    intro acc d
    rw [List.foldl_cons, ih]
    unfold collectStep
    by_cases h : (visitFunctionDeclKeeps t || visitDeclKeeps t) = true
    · rw [if_pos h]
      simp only [List.mem_append, List.mem_cons, List.not_mem_nil, or_false]
      constructor
      · rintro ((hd | rfl) | hr)
        · exact Or.inl hd
        · exact Or.inr ⟨Or.inl rfl, h⟩
        · exact Or.inr ⟨Or.inr hr.1, hr.2⟩
      · rintro (hd | ⟨(rfl | hmem), hk⟩)
        · exact Or.inl (Or.inl hd)
        · exact Or.inl (Or.inr rfl)
        · exact Or.inr ⟨hmem, hk⟩
    · rw [if_neg h]
      simp only [List.mem_cons]
      constructor
      · rintro (hd | hr)
        · exact Or.inl hd
        · exact Or.inr ⟨Or.inr hr.1, hr.2⟩
      · rintro (hd | ⟨(rfl | hmem), hk⟩)
        · exact Or.inl hd
        · exact absurd hk h
        · exact Or.inr ⟨hmem, hk⟩

/-- C1: the set of root declarations (declsToKeep) produced by the
dependencies collector contains exactly the function declarations for which
isMain holds and the declarations whose start lies in the main file and whose
attached raw comment text contains the substring "caide keep"; no other
declaration becomes a root. -/
theorem declsToKeep_mem (tu : List CDecl) (d : CDecl) :
    d ∈ declsToKeep tu ↔
      d ∈ tu ∧
        ((d.isFunctionDecl = true ∧ d.isMain = true) ∨
         (d.locStartInMainFile = true ∧
           ∃ text, d.rawComment = some text ∧
             hasInfix caideKeepComment.toList text.toList = true)) := by
  unfold declsToKeep
  rw [mem_foldl_collectStep]
  simp only [List.not_mem_nil, false_or]
  refine and_congr_right fun _ => ?_
  unfold visitFunctionDeclKeeps visitDeclKeeps
  cases hc : d.rawComment with
  | none => simp [hc]
  | some text => simp [hc]

/-! ## Optimizer entry point and result extraction
(optimizer.cpp, OptimizerConsumer::getResult lines 893-907 and
Optimizer::doOptimize lines 975-993) -/

/-- OptimizerConsumer::getResult (optimizer.cpp lines 893-907): when the
rewriter holds a rewrite buffer for the main file its contents are the result;
otherwise the original buffer is returned, and when the source manager fails
to produce it (null buffer or the invalid flag set, modelled as none) the
literal string "Inliner error" is returned. -/
def getResult (rewriteBuf : Option String) (mainFileBuf : Option String) : String :=
  match rewriteBuf with
  | some s => s
  | none =>
    match mainFileBuf with
    | some s => s
    | none => "Inliner error"

/-- Optimizer::doOptimize (optimizer.cpp lines 975-993): the front-end tool
run yields an integer status; a non-zero status raises the runtime error
"Compilation error" (modelled as Except.error), a zero status returns the
result string the consumer stored. -/
def doOptimize (runStatus : Int) (result : String) : Except String String :=
  if runStatus ≠ 0 then Except.error "Compilation error"
  else Except.ok result

/-- C8: doOptimize raises the run-level "Compilation error" and returns no
rewritten text exactly when the front-end run status is non-zero, and returns
the rewritten translation-unit text when the status is zero. -/
theorem doOptimize_status (runStatus : Int) (result : String) :
    (runStatus ≠ 0 → doOptimize runStatus result = Except.error "Compilation error") ∧
    (runStatus = 0 → doOptimize runStatus result = Except.ok result) := by
  constructor
  · intro h; simp [doOptimize, h]
  · intro h; simp [doOptimize, h]

/-- Witness for doOptimize_status at statuses 1 and 0. -/
theorem doOptimize_status_witness :
    doOptimize 1 "text" = Except.error "Compilation error" ∧
    doOptimize 0 "text" = Except.ok "text" :=
  ⟨(doOptimize_status 1 "text").1 (by decide), (doOptimize_status 0 "text").2 rfl⟩

/-- C10: with no rewrite buffer for the main file and a failing original
buffer lookup, getResult yields the literal string "Inliner error", and a
successful run (status zero) hands exactly that string to the caller as the
ordinary result rather than signaling an error. -/
theorem getResult_inlinerError :
    getResult none none = "Inliner error" ∧
    doOptimize 0 (getResult none none) = Except.ok "Inliner error" :=
  ⟨rfl, rfl⟩

/-! ## Optimizer visitor: removal protocol
(optimizer.cpp, OptimizerVisitor::removeDecl lines 742-761) -/

/-- Attributes of a (non-null) declaration consulted by
OptimizerVisitor::removeDecl: its expansion range endpoints
(getExpansionStart / getExpansionEnd), the result of findSemiAfterLocation at
the range end (none when the returned location is invalid, that is, when no
semicolon immediately follows), and the source range of the attached raw
comment when getRawCommentForDeclNoCache yields one. -/
structure RemovalInfo where
  expStart : Nat
  expEnd : Nat
  semiAfterEnd : Option Nat
  commentRange : Option (Nat × Nat)
deriving DecidableEq

/-- A removal request as submitted to SmartRewriter::removeRange: a source
range together with the RemoveLineIfEmpty rewrite option. -/
structure RemoveRequest where
  rangeStart : Nat
  rangeEnd : Nat
  removeLineIfEmpty : Bool
deriving DecidableEq

/-- OptimizerVisitor::removeDecl (optimizer.cpp lines 742-761): the expansion
end is replaced by the following semicolon's location when findSemiAfterLocation
returns a valid one; the resulting range is submitted with RemoveLineIfEmpty
set; when the declaration has an attached raw comment its range is submitted
afterwards with the same options.  The returned list is the submission
sequence. -/
def removeDecl (d : RemovalInfo) : List RemoveRequest :=
  let e := match d.semiAfterEnd with
    | some s => s
    | none => d.expEnd
  let first : RemoveRequest := ⟨d.expStart, e, true⟩
  match d.commentRange with
  | some c => [first, ⟨c.1, c.2, true⟩]
  | none => [first]

/-- C7: removeDecl extends the expansion end through an immediately following
semicolon when one exists, submits the (possibly extended) range with the
remove-empty-lines option enabled, and submits the attached raw comment's
range exactly when a comment is present; nothing else is submitted. -/
theorem removeDecl_protocol (d : RemovalInfo) :
    (∀ s, d.semiAfterEnd = some s →
      (⟨d.expStart, s, true⟩ : RemoveRequest) ∈ removeDecl d) ∧
    (d.semiAfterEnd = none →
      (⟨d.expStart, d.expEnd, true⟩ : RemoveRequest) ∈ removeDecl d) ∧
    (∀ c, d.commentRange = some c →
      (⟨c.1, c.2, true⟩ : RemoveRequest) ∈ removeDecl d) ∧
    (∀ r ∈ removeDecl d, r.removeLineIfEmpty = true) ∧
    (removeDecl d).length = (if d.commentRange.isSome then 2 else 1) := by
  unfold removeDecl
  cases hs : d.semiAfterEnd with
  | none =>
    cases hc : d.commentRange with
    | none => simp
    | some c => simp
  | some s =>
    cases hc : d.commentRange with
    | none => simp
    | some c => simp

/-- Witness for removeDecl_protocol at a declaration with a following
semicolon and an attached comment. -/
theorem removeDecl_protocol_witness :
    (⟨3, 7, true⟩ : RemoveRequest) ∈ removeDecl ⟨3, 5, some 7, some (1, 2)⟩ ∧
    (⟨1, 2, true⟩ : RemoveRequest) ∈ removeDecl ⟨3, 5, some 7, some (1, 2)⟩ :=
  ⟨(removeDecl_protocol ⟨3, 5, some 7, some (1, 2)⟩).1 7 rfl,
   (removeDecl_protocol ⟨3, 5, some 7, some (1, 2)⟩).2.2.1 (1, 2) rfl⟩

/-! ## Late-template forcing and diagnostic suppression
(optimizer.cpp, OptimizerConsumer::HandleTranslationUnit lines 790-796) -/

/-- The forcing loop over srcInfo.delayedParsedFunctions (optimizer.cpp lines
792-795): each delayed function body is handed to Sema's LateTemplateParser in
turn.  The parameter models one parser invocation, which either returns
normally (some) or exits exceptionally (none); an exceptional exit propagates
out of the loop at once. -/
def forceLoop (parseOne : Nat → Option Unit) : List Nat → Option Unit
  | [] => some ()
  | f :: fs =>
    match parseOne f with
    | some _ => forceLoop parseOne fs
    | none => none

/-- The late-template forcing step (optimizer.cpp lines 790-796):
setSuppressAllDiagnostics(true) is called before the loop and
setSuppressAllDiagnostics(false) on the line after it; there is no scope
guard, so the re-enabling call is reached only when the loop completes
normally.  The result pairs the loop outcome with the diagnostics-suppression
flag observed after the step exits (by its normal or exceptional path). -/
def forceDelayedParse (parseOne : Nat → Option Unit) (fs : List Nat) :
    Option Unit × Bool :=
  match forceLoop parseOne fs with
  | some _ => (some (), false)
  | none => (none, true)

/-- C9 counterexample: the claim that diagnostics are re-enabled on every exit
path of the forcing step fails on the code: with a parser invocation that
exits exceptionally on the single delayed function, the step exits with the
suppression flag still set. -/
theorem forceDelayedParse_counterexample :
    ¬ ((forceDelayedParse (fun _ => none) [0]).2 = false) := by
  decide

/-- C9 amended: diagnostic suppression is enabled before forcing and the flag
observed at exit is cleared exactly on normal completion of the loop; the
acquisition is not scoped, so an exceptional exit of the forcing step leaves
diagnostics suppressed. -/
theorem forceDelayedParse_suppression (parseOne : Nat → Option Unit)
    (fs : List Nat) :
    (forceDelayedParse parseOne fs).2 = (forceLoop parseOne fs).isNone ∧
    (forceDelayedParse parseOne fs).1 = forceLoop parseOne fs := by
  cases h : forceLoop parseOne fs with
  | none => simp [forceDelayedParse, h]
  | some u => cases u; simp [forceDelayedParse, h]

/-! ## SmartRewriter accepted-range discipline
(src/src/SmartRewriter.h; the implementation file SmartRewriter.cpp is not
among the sources, so the operations are modelled from the specification) -/

/-- Modelled from the spec: SmartRewriter.h declares the accepted set
`removed` of RewriteItem (a source range plus RewriteOptions), but
SmartRewriter.cpp is missing from the sources.  Per the specification a
source range is keyed by its begin and end locations, here buffer offsets;
the RewriteOptions payload is reduced to the RemoveLineIfEmpty flag. -/
structure SmartRewriterState where
  removed : List ((Nat × Nat) × Bool)
deriving DecidableEq

/-- Two source ranges overlap when neither lies strictly before the other. -/
def rangesOverlap (r s : Nat × Nat) : Bool :=
  r.1 ≤ s.2 && s.1 ≤ r.2

/-- Modelled from the spec: canRemoveRange(r) holds iff no previously
accepted range overlaps r. -/
def canRemoveRange (st : SmartRewriterState) (r : Nat × Nat) : Bool :=
  st.removed.all (fun s => !rangesOverlap s.1 r)

/-- Modelled from the spec: removeRange(r, opts) records (r, opts) in the
accepted set and returns true when canRemoveRange(r) holds; otherwise it
returns false and leaves the state unchanged. -/
def removeRange (st : SmartRewriterState) (r : Nat × Nat) (opts : Bool) :
    Bool × SmartRewriterState :=
  if canRemoveRange st r then (true, ⟨(r, opts) :: st.removed⟩)
  else (false, st)

/-- Pairwise non-overlap of the accepted set. -/
def acceptedDisjoint (st : SmartRewriterState) : Prop :=
  st.removed.Pairwise (fun a b => rangesOverlap a.1 b.1 = false)

/-- A sequence of removeRange requests applied to a state, keeping only the
final state. -/
def applyRequests (st : SmartRewriterState)
    (reqs : List ((Nat × Nat) × Bool)) : SmartRewriterState :=
  reqs.foldl (fun s rq => (removeRange s rq.1 rq.2).2) st

lemma rangesOverlap_comm (r s : Nat × Nat) :
    rangesOverlap r s = rangesOverlap s r := by
  unfold rangesOverlap
  rw [Bool.and_comm]

lemma removeRange_preserves_disjoint (st : SmartRewriterState) (r : Nat × Nat)
    (opts : Bool) (h : acceptedDisjoint st) :
    acceptedDisjoint (removeRange st r opts).2 := by
  unfold removeRange
  by_cases hc : canRemoveRange st r
  · rw [if_pos hc]
    unfold acceptedDisjoint at h ⊢
    refine List.Pairwise.cons ?_ h
    intro b hb
    have hall := List.all_eq_true.mp hc b hb
    simp only [Bool.not_eq_eq_eq_not, Bool.not_true] at hall
    rw [rangesOverlap_comm]
    exact hall
  · rw [if_neg hc]
    exact h

lemma applyRequests_disjoint (reqs : List ((Nat × Nat) × Bool)) :
    ∀ st : SmartRewriterState, acceptedDisjoint st →
      acceptedDisjoint (applyRequests st reqs) := by
  induction reqs with
  | nil => intro st h; exact h
  | cons rq rest ih =>
    intro st h
    exact ih _ (removeRange_preserves_disjoint st rq.1 rq.2 h)

/-- C4: removeRange(r, opts) returns true and prepends (r, opts) to the
accepted set exactly when no previously accepted range overlaps r (that is,
when canRemoveRange(r) holds), returns false leaving the state unchanged
otherwise, and consequently the accepted set reached from the empty state by
any request sequence is pairwise non-overlapping. -/
theorem removeRange_discipline :
    (∀ (st : SmartRewriterState) (r : Nat × Nat) (opts : Bool),
      canRemoveRange st r = true →
        removeRange st r opts = (true, ⟨(r, opts) :: st.removed⟩)) ∧
    (∀ (st : SmartRewriterState) (r : Nat × Nat) (opts : Bool),
      canRemoveRange st r = false →
        removeRange st r opts = (false, st)) ∧
    (∀ reqs : List ((Nat × Nat) × Bool),
      acceptedDisjoint (applyRequests ⟨[]⟩ reqs)) := by
  refine ⟨?_, ?_, ?_⟩
  · intro st r opts h
    simp [removeRange, h]
  · intro st r opts h
    simp [removeRange, h]
  · intro reqs
    exact applyRequests_disjoint reqs ⟨[]⟩ (List.Pairwise.nil)

/-- Witness for removeRange_discipline: an accepting call, a rejecting call on
an overlapping range, and the disjointness of a concrete request run. -/
theorem removeRange_discipline_witness :
    removeRange ⟨[]⟩ (0, 5) true = (true, ⟨[((0, 5), true)]⟩) ∧
    removeRange ⟨[((0, 5), true)]⟩ (3, 7) true = (false, ⟨[((0, 5), true)]⟩) ∧
    acceptedDisjoint (applyRequests ⟨[]⟩ [((0, 5), true), ((3, 7), false), ((6, 9), true)]) :=
  ⟨removeRange_discipline.1 ⟨[]⟩ (0, 5) true (by decide),
   removeRange_discipline.2.1 ⟨[((0, 5), true)]⟩ (3, 7) true (by decide),
   removeRange_discipline.2.2 [((0, 5), true), ((3, 7), false), ((6, 9), true)]⟩

/-! ## Dependencies collector: edge insertion
(optimizer.cpp, DependenciesCollector::insertReference lines 112-129) -/

/-- Universe of declarations for the uses graph: canonicalization
(getCanonicalDecl) is a function on declaration identifiers and namespace-ness
(isa NamespaceDecl) a predicate.  Clang's getCanonicalDecl is idempotent;
theorems take that as a hypothesis. -/
structure DeclWorld where
  canon : Nat → Nat
  isNamespaceDecl : Nat → Bool

/-- DependenciesCollector::insertReference (optimizer.cpp lines 112-129): the
edge is dropped when either endpoint is null (none); otherwise each endpoint
is replaced by its canonical declaration unless it is a namespace declaration,
and the edge is inserted into srcInfo.uses (modelled as an edge list). -/
def insertReference (w : DeclWorld) (uses : List (Nat × Nat))
    (fromDecl toDecl : Option Nat) : List (Nat × Nat) :=
  match fromDecl, toDecl with
  | some f, some t =>
    ((if w.isNamespaceDecl f then f else w.canon f),
     (if w.isNamespaceDecl t then t else w.canon t)) :: uses
  | some _, none => uses
  | none, _ => uses

/-- A vertex is admissible in the uses graph when it is a namespace
declaration or a fixed point of canonicalization. -/
def canonicalOrNamespace (w : DeclWorld) (v : Nat) : Prop :=
  w.isNamespaceDecl v = true ∨ w.canon v = v

/-- The uses edge list built by a sequence of insertReference calls starting
from the empty map. -/
def buildUses (w : DeclWorld) (reqs : List (Option Nat × Option Nat)) :
    List (Nat × Nat) :=
  reqs.foldl (fun uses rq => insertReference w uses rq.1 rq.2) []

lemma insertReference_endpoint (w : DeclWorld)
    (hidem : ∀ x, w.canon (w.canon x) = w.canon x) (v : Nat) :
    canonicalOrNamespace w (if w.isNamespaceDecl v then v else w.canon v) := by
  by_cases h : w.isNamespaceDecl v = true
  · rw [if_pos h]
    exact Or.inl h
  · rw [if_neg h]
    exact Or.inr (hidem v)

lemma buildUses_aux (w : DeclWorld)
    (hidem : ∀ x, w.canon (w.canon x) = w.canon x)
    (reqs : List (Option Nat × Option Nat)) :
    ∀ uses : List (Nat × Nat),
      (∀ e ∈ uses, canonicalOrNamespace w e.1 ∧ canonicalOrNamespace w e.2) →
      ∀ e ∈ reqs.foldl (fun acc rq => insertReference w acc rq.1 rq.2) uses,
        canonicalOrNamespace w e.1 ∧ canonicalOrNamespace w e.2 := by
  induction reqs with
  | nil => intro uses h; exact h
  | cons rq rest ih =>
    intro uses h
    rw [List.foldl_cons]
    refine ih _ ?_
    intro e he
    obtain ⟨f?, t?⟩ := rq
    cases f? with
    | none => exact h e he
    | some f =>
      cases t? with
      | none => exact h e he
      | some t =>
        have he2 : e ∈
            ((if w.isNamespaceDecl f then f else w.canon f),
             (if w.isNamespaceDecl t then t else w.canon t)) :: uses := he
        rcases List.mem_cons.mp he2 with rfl | he3
        · exact ⟨insertReference_endpoint w hidem f, insertReference_endpoint w hidem t⟩
        · exact h e he3

/-- C5: insertReference drops the edge when either endpoint is null, replaces
each non-namespace endpoint by its canonical declaration and leaves namespace
endpoints as-is before insertion; consequently (given idempotence of
getCanonicalDecl) every vertex of a uses map built from insertReference calls
is a canonical declaration or a namespace declaration. -/
theorem insertReference_canonicalizes (w : DeclWorld)
    (hidem : ∀ x, w.canon (w.canon x) = w.canon x) :
    (∀ uses toDecl, insertReference w uses none toDecl = uses) ∧
    (∀ uses fromDecl, insertReference w uses fromDecl none = uses) ∧
    (∀ uses f t, insertReference w uses (some f) (some t) =
      ((if w.isNamespaceDecl f then f else w.canon f),
       (if w.isNamespaceDecl t then t else w.canon t)) :: uses) ∧
    (∀ reqs, ∀ e ∈ buildUses w reqs,
      canonicalOrNamespace w e.1 ∧ canonicalOrNamespace w e.2) := by
  refine ⟨?_, ?_, ?_, ?_⟩
  · intro uses toDecl; rfl
  · intro uses fromDecl
    cases fromDecl <;> rfl
  · intro uses f t; rfl
  · intro reqs e he
    exact buildUses_aux w hidem reqs [] (by intro x hx; cases hx) e he

/-- Witness for insertReference_canonicalizes in a world where declaration 0
is a namespace and canonicalization maps everything to 0 or itself. -/
theorem insertReference_canonicalizes_witness :
    insertReference ⟨fun x => x % 2, fun v => v == 0⟩ [] none (some 3) = [] ∧
    insertReference ⟨fun x => x % 2, fun v => v == 0⟩ [] (some 3) (some 4) = [(1, 0)] ∧
    canonicalOrNamespace ⟨fun x => x % 2, fun v => v == 0⟩ 1 := by
  have h := insertReference_canonicalizes ⟨fun x => x % 2, fun v => v == 0⟩
    (fun x => Nat.mod_mod_of_dvd x (dvd_refl 2))
  refine ⟨h.1 [] (some 3), ?_, ?_⟩
  · rw [h.2.2.1 [] 3 4]
    decide
  · have := h.2.2.2 [(some 3, some 4)] (1, 0) (by decide)
    exact this.1

/-! ## Reachability solver
(optimizer.cpp, OptimizerConsumer::HandleTranslationUnit lines 800-819) -/

/-- Parameters of the reachability solver: the uses adjacency (operator[] on
srcInfo.uses yields the empty set for absent keys, hence a total function),
the class-record test (dyn_cast to CXXRecordDecl), and getDestructor, none
when the declaration is not a class record or the class has no destructor. -/
structure ReachWorld where
  usesAdj : Nat → List Nat
  isCXXRecord : Nat → Bool
  destructorOf : Nat → Option Nat

/-- The destructor enqueued when a declaration enters the used set: the
solver checks dyn_cast to CXXRecordDecl and then getDestructor. -/
def dtorEnqueue (w : ReachWorld) (d : Nat) : List Nat :=
  if w.isCXXRecord d then
    match w.destructorOf d with
    | some dtor => [dtor]
    | none => []
  else []

/-- Worklist loop of the reachability solver (optimizer.cpp lines 805-819),
with explicit fuel: pop a declaration from the queue; when it is newly
inserted into the used set, enqueue everything it uses and, when it is a
class record with a destructor, enqueue that destructor.  Returns the used
set together with the remaining queue when fuel runs out; a completed run is
one whose remaining queue is empty.  (The C++ queue is a pointer-ordered
std::set; the queue order is irrelevant to the properties proved here and is
modelled as first-in-first-served.) -/
def reachLoop (w : ReachWorld) : Nat → List Nat → List Nat → List Nat × List Nat
  | 0, used, queue => (used, queue)
  | _ + 1, used, [] => (used, [])
  | fuel + 1, used, d :: queue =>
    if d ∈ used then reachLoop w fuel used queue
    else reachLoop w fuel (d :: used) ((queue ++ w.usesAdj d) ++ dtorEnqueue w d)

lemma reachLoop_destructor_inv (w : ReachWorld) :
    ∀ (fuel : Nat) (used queue result : List Nat),
      (∀ d ∈ used, w.isCXXRecord d = true →
        ∀ t, w.destructorOf d = some t → t ∈ used ∨ t ∈ queue) →
      reachLoop w fuel used queue = (result, []) →
      ∀ d ∈ result, w.isCXXRecord d = true →
        ∀ t, w.destructorOf d = some t → t ∈ result := by
  intro fuel
  induction fuel with
  | zero =>
    intro used queue result hinv hrun
    have h1 : used = result ∧ queue = ([] : List Nat) := by
      have : (used, queue) = (result, []) := hrun
      exact ⟨congrArg Prod.fst this, congrArg Prod.snd this⟩
    obtain ⟨rfl, rfl⟩ := h1
    intro d hd hrec t ht
    rcases hinv d hd hrec t ht with h | h
    · exact h
    · exact absurd h (List.not_mem_nil t)
  | succ n ih =>
    intro used queue result hinv hrun
    cases queue with
    | nil =>
      have h1 : used = result := by
        have : (used, ([] : List Nat)) = (result, []) := hrun
        exact congrArg Prod.fst this
      subst h1
      intro d hd hrec t ht
      rcases hinv d hd hrec t ht with h | h
      · exact h
      · exact absurd h (List.not_mem_nil t)
    | cons d queue =>
      by_cases hd : d ∈ used
      · have hrun2 : reachLoop w n used queue = (result, []) := by
          rw [reachLoop, if_pos hd] at hrun
          exact hrun
        refine ih used queue result ?_ hrun2
        intro x hx hrec t ht
        rcases hinv x hx hrec t ht with h | h
        · exact Or.inl h
        · rcases List.mem_cons.mp h with rfl | h2
          · exact Or.inl hd
          · exact Or.inr h2
      · have hrun2 : reachLoop w n (d :: used)
            ((queue ++ w.usesAdj d) ++ dtorEnqueue w d) = (result, []) := by
          rw [reachLoop, if_neg hd] at hrun
          exact hrun
        refine ih (d :: used) _ result ?_ hrun2
        intro x hx hrec t ht
        rcases List.mem_cons.mp hx with rfl | hx2
        · refine Or.inr (List.mem_append_right _ ?_)
          unfold dtorEnqueue
          rw [if_pos hrec, ht]
          exact List.mem_singleton.mpr rfl
        · rcases hinv x hx2 hrec t ht with h | h
          · exact Or.inl (List.mem_cons_of_mem d h)
          · rcases List.mem_cons.mp h with rfl | h2
            · exact Or.inl (List.mem_cons_self t used)
            · exact Or.inr (List.mem_append_left _ (List.mem_append_left _ h2))

/-- C2: whenever a completed run of the reachability solver marks a class
record declaration used, the record's destructor (when the class has one) is
marked used as well: the closure enqueues the destructor of every class
record it adds to the used set. -/
theorem reachability_destructor_used (w : ReachWorld) (fuel : Nat)
    (roots used : List Nat)
    (hrun : reachLoop w fuel [] roots = (used, [])) :
    ∀ d ∈ used, w.isCXXRecord d = true →
      ∀ t, w.destructorOf d = some t → t ∈ used :=
  reachLoop_destructor_inv w fuel [] roots used
    (by intro d hd; exact absurd hd (List.not_mem_nil d)) hrun

/-- A concrete solver world: declaration 0 is a class record with destructor
1; nothing has outgoing uses edges. -/
def reachExampleWorld : ReachWorld :=
  ⟨fun _ => [], fun d => d == 0, fun d => if d == 0 then some 1 else none⟩

/-- Witness for reachability_destructor_used: from root 0 the completed run
marks 0 and its destructor 1 used. -/
theorem reachability_destructor_used_witness :
    reachLoop reachExampleWorld 3 [] [0] = ([1, 0], []) ∧ (1 : Nat) ∈ [1, 0] :=
  ⟨rfl, reachability_destructor_used reachExampleWorld 3 [0] [1, 0] rfl
    0 (by decide) (by decide) 1 (by decide)⟩

/-! ## Comma-group variable pruner
(optimizer.cpp, OptimizerConsumer::removeUnusedVariables lines 840-891) -/

/-- Source location in the optimizer's buffer; none models an invalid
SourceLocation, for example the result of findTokenAfterLocation or
findSemiAfterLocation when the expected token does not follow. -/
abbrev SrcLoc := Option Nat

/-- Attributes of one variable of a comma-separated global/static group: the
result of getLocation (the variable's name location, possibly invalid), the
expansion end of the declaration, and the usage flag that the pruner computes
from UsageInfo at the canonical declaration. -/
structure GroupVar where
  nameLoc : SrcLoc
  expEnd : Nat
  isUsed : Bool
deriving DecidableEq

/-- A removal request of the pruner: a source range whose endpoints may be
invalid locations (the code builds SourceRange values from possibly-invalid
locations and submits them without further checks outside the per-variable
loop). -/
structure VarRemoval where
  rangeStart : SrcLoc
  rangeEnd : SrcLoc
deriving DecidableEq

/-- lastUsed as computed by removeUnusedVariables: initialized to the group
size and set to i whenever variable i is used, hence the index of the last
used variable, or the group size when no variable is used. -/
def computeLastUsed (vars : List GroupVar) : Nat :=
  vars.enum.foldl (fun acc p => if p.2.isUsed then p.1 else acc) vars.length

/-- OptimizerConsumer::removeUnusedVariables on one comma-group (optimizer.cpp
lines 840-891), mirroring the code's branch structure.  The parameters model
findTokenAfterLocation with tok::comma and findSemiAfterLocation (none when
the returned location is invalid); startOfType is the group's key, its shared
expansion start.  Result: the ranges submitted to SmartRewriter in submission
order (all with RemoveLineIfEmpty set, which is not part of the range data). -/
def pruneGroup (commaAfter semiAfter : Nat → SrcLoc) (startOfType : Nat)
    (vars : List GroupVar) : List VarRemoval :=
  if computeLastUsed vars = vars.length then
    [⟨some startOfType, semiAfter (((vars.getLast?).map GroupVar.expEnd).getD 0)⟩]
  else
    vars.enum.filterMap (fun p =>
      if p.1 < computeLastUsed vars ∧ p.2.isUsed = false then
        if p.2.nameLoc.isSome &&
            (if p.1 + 1 < vars.length then commaAfter p.2.expEnd
             else some p.2.expEnd).isSome then
          some ⟨p.2.nameLoc,
            if p.1 + 1 < vars.length then commaAfter p.2.expEnd
            else some p.2.expEnd⟩
        else none
      else none) ++
    (if computeLastUsed vars + 1 ≠ vars.length then
      [⟨commaAfter (((vars[computeLastUsed vars]?).map GroupVar.expEnd).getD 0),
        some (((vars.getLast?).map GroupVar.expEnd).getD 0)⟩]
    else [])

/-- The comma-group pruning rule in the words of the claim: when lastUsed
equals the group size, one removal from the shared type start through the
terminating semicolon; otherwise, for each unused variable with index i before
lastUsed, a removal from the variable's name location to its expansion end
extended through the following comma (unconditionally), and, when lastUsed + 1
is less than the group size, one removal from the comma after variable
lastUsed to the end of the last variable. -/
def pruneGroupClaim (commaAfter semiAfter : Nat → SrcLoc) (startOfType : Nat)
    (vars : List GroupVar) : List VarRemoval :=
  if computeLastUsed vars = vars.length then
    [⟨some startOfType, semiAfter (((vars.getLast?).map GroupVar.expEnd).getD 0)⟩]
  else
    vars.enum.filterMap (fun p =>
      if p.1 < computeLastUsed vars ∧ p.2.isUsed = false then
        if p.2.nameLoc.isSome && (commaAfter p.2.expEnd).isSome then
          some ⟨p.2.nameLoc, commaAfter p.2.expEnd⟩
        else none
      else none) ++
    (if computeLastUsed vars + 1 < vars.length then
      [⟨commaAfter (((vars[computeLastUsed vars]?).map GroupVar.expEnd).getD 0),
        some (((vars.getLast?).map GroupVar.expEnd).getD 0)⟩]
    else [])

lemma foldl_lastUsed_cases (l : List (Nat × GroupVar)) :
    ∀ a : Nat, l.foldl (fun acc p => if p.2.isUsed then p.1 else acc) a = a ∨
      (l.foldl (fun acc p => if p.2.isUsed then p.1 else acc) a) ∈ l.map Prod.fst := by
  induction l with
  | nil => intro a; exact Or.inl rfl
  | cons p rest ih =>
    intro a
    rw [List.foldl_cons]
    rcases ih (if p.2.isUsed then p.1 else a) with h | h
    · rw [h]
      by_cases hu : p.2.isUsed
      · rw [if_pos hu]
        exact Or.inr (List.mem_cons_self _ _)
      · rw [if_neg hu]
        exact Or.inl rfl
    · exact Or.inr (List.mem_cons_of_mem _ h)

lemma computeLastUsed_eq_or_lt (vars : List GroupVar) :
    computeLastUsed vars = vars.length ∨ computeLastUsed vars < vars.length := by
  unfold computeLastUsed
  rcases foldl_lastUsed_cases vars.enum vars.length with h | h
  · exact Or.inl h
  · refine Or.inr ?_
    have h2 : vars.enum.map Prod.fst = List.range vars.length :=
      List.enum_map_fst vars
    rw [h2] at h
    exact List.mem_range.mp h

/-- C3: the ranges the pruner submits for a comma-group are exactly those the
claim describes: the whole group (shared type start through the terminating
semicolon) when no variable is used, and otherwise one range per unused
variable before the last used one, from its name location through the
following comma, plus, when variables remain after the last used one, the
range from the comma after it to the end of the last variable. -/
theorem pruneGroup_eq_claim (commaAfter semiAfter : Nat → SrcLoc)
    (startOfType : Nat) (vars : List GroupVar) :
    pruneGroup commaAfter semiAfter startOfType vars =
      pruneGroupClaim commaAfter semiAfter startOfType vars := by
  unfold pruneGroup pruneGroupClaim
  by_cases h : computeLastUsed vars = vars.length
  · rw [if_pos h, if_pos h]
  · have hlt : computeLastUsed vars < vars.length := by
      rcases computeLastUsed_eq_or_lt vars with h1 | h1
      · exact absurd h1 h
      · exact h1
    rw [if_neg h, if_neg h]
    have htail : (computeLastUsed vars + 1 ≠ vars.length) ↔
        (computeLastUsed vars + 1 < vars.length) := by omega
    congr 1
    · refine List.filterMap_congr ?_
      intro p _
      by_cases hp : p.1 < computeLastUsed vars ∧ p.2.isUsed = false
      · rw [if_pos hp, if_pos hp]
        have hidx : p.1 + 1 < vars.length := by omega
        rw [if_pos hidx]
      · rw [if_neg hp, if_neg hp]
    · by_cases ht : computeLastUsed vars + 1 < vars.length
      · rw [if_pos ht, if_pos (htail.mpr ht)]
      · rw [if_neg ht, if_neg (fun hx => ht (htail.mp hx))]

/-! ## Optimizer visitor: duplicate using-directives
(optimizer.cpp, OptimizerVisitor::VisitUsingDirectiveDecl lines 732-739) -/

/-- Attributes of a using-directive consulted by VisitUsingDirectiveDecl:
whether its start location lies in the main file, and the nominated namespace
declaration (none models a null getNominatedNamespace result). -/
structure UsingDirective where
  inMainFile : Bool
  nominated : Option Nat
deriving DecidableEq

/-- The namespace a directive contributes to the usedNamespaces set: its
nominated namespace when the directive lies in the main file, nothing
otherwise (directives outside the main file are skipped entirely). -/
def nominatedInMainFile (d : UsingDirective) : Option Nat :=
  if d.inMainFile then d.nominated else none

/-- Namespaces nominated by the main-file directives of a list, in order. -/
def seenNamespaces (ds : List UsingDirective) : List Nat :=
  ds.filterMap nominatedInMainFile

/-- Traversal of the using-directives in order (optimizer.cpp lines 732-739):
usedNamespaces collects each nominated namespace on first sight in the main
file (set insert), and a directive whose namespace is already present is
removed.  The result lists the removed directives by their position in
traversal order, offset by the third argument. -/
def visitUsingDirectives : List UsingDirective → List Nat → Nat → List Nat
  | [], _, _ => []
  | d :: rest, usedNs, idx =>
    if d.inMainFile then
      match d.nominated with
      | some n =>
        if n ∈ usedNs then idx :: visitUsingDirectives rest usedNs (idx + 1)
        else visitUsingDirectives rest (n :: usedNs) (idx + 1)
      | none => visitUsingDirectives rest usedNs (idx + 1)
    else visitUsingDirectives rest usedNs (idx + 1)

/-- Positions of the using-directives removed during the optimizer visitor's
traversal, starting with an empty usedNamespaces set. -/
def removedUsingDirectives (ds : List UsingDirective) : List Nat :=
  visitUsingDirectives ds [] 0

lemma visitUD_cons (d : UsingDirective) (rest : List UsingDirective)
    (usedNs : List Nat) (idx : Nat) :
    visitUsingDirectives (d :: rest) usedNs idx =
      match nominatedInMainFile d with
      | none => visitUsingDirectives rest usedNs (idx + 1)
      | some n =>
        if n ∈ usedNs then idx :: visitUsingDirectives rest usedNs (idx + 1)
        else visitUsingDirectives rest (n :: usedNs) (idx + 1) := by
  cases hm : d.inMainFile <;> cases hn : d.nominated <;>
    simp [visitUsingDirectives, nominatedInMainFile, hm, hn]

lemma visitUD_mem_iff (ds : List UsingDirective) :
    ∀ (usedNs : List Nat) (idx k : Nat),
      k ∈ visitUsingDirectives ds usedNs idx ↔
        ∃ p d n, ds[p]? = some d ∧ k = idx + p ∧
          nominatedInMainFile d = some n ∧
          (n ∈ usedNs ∨ n ∈ seenNamespaces (ds.take p)) := by
  induction ds with
  | nil =>
    intro usedNs idx k
    simp [visitUsingDirectives]
  | cons d0 rest ih =>
    intro usedNs idx k
    rw [visitUD_cons]
    cases hm : nominatedInMainFile d0 with
    | none =>
      simp only []
      rw [ih usedNs (idx + 1) k]
      constructor
      · rintro ⟨p, d, n, hget, hk, hnom, hmem⟩
        refine ⟨p + 1, d, n, ?_, by omega, hnom, ?_⟩
        · rw [List.getElem?_cons_succ]; exact hget
        · have hseen : seenNamespaces ((d0 :: rest).take (p + 1)) =
              seenNamespaces (rest.take p) := by
            rw [List.take_succ_cons]
            unfold seenNamespaces
            rw [List.filterMap_cons, hm]
          rw [hseen]; exact hmem
      · rintro ⟨p, d, n, hget, hk, hnom, hmem⟩
        cases p with
        | zero =>
          rw [List.getElem?_cons_zero] at hget
          have : d0 = d := Option.some_injective _ hget
          subst this
          rw [hm] at hnom
          exact absurd hnom (Option.noConfusion)
        | succ q =>
          rw [List.getElem?_cons_succ] at hget
          refine ⟨q, d, n, hget, by omega, hnom, ?_⟩
          have hseen : seenNamespaces ((d0 :: rest).take (q + 1)) =
              seenNamespaces (rest.take q) := by
            rw [List.take_succ_cons]
            unfold seenNamespaces
            rw [List.filterMap_cons, hm]
          rw [hseen] at hmem; exact hmem
    | some n0 =>
      simp only []
      have hseen : ∀ q : Nat, seenNamespaces ((d0 :: rest).take (q + 1)) =
          n0 :: seenNamespaces (rest.take q) := by
        intro q
        rw [List.take_succ_cons]
        unfold seenNamespaces
        rw [List.filterMap_cons, hm]
      by_cases hmem0 : n0 ∈ usedNs
      · rw [if_pos hmem0]
        rw [List.mem_cons, ih usedNs (idx + 1) k]
        constructor
        · rintro (rfl | ⟨p, d, n, hget, hk, hnom, hmem⟩)
          · exact ⟨0, d0, n0, List.getElem?_cons_zero, by omega, hm,
              Or.inl hmem0⟩
          · refine ⟨p + 1, d, n, ?_, by omega, hnom, ?_⟩
            · rw [List.getElem?_cons_succ]; exact hget
            · rw [hseen p]
              rcases hmem with h | h
              · exact Or.inl h
              · exact Or.inr (List.mem_cons_of_mem n0 h)
        · rintro ⟨p, d, n, hget, hk, hnom, hmem⟩
          cases p with
          | zero => exact Or.inl (by omega)
          | succ q =>
            rw [List.getElem?_cons_succ] at hget
            rw [hseen q] at hmem
            refine Or.inr ⟨q, d, n, hget, by omega, hnom, ?_⟩
            rcases hmem with h | h
            · exact Or.inl h
            · rcases List.mem_cons.mp h with rfl | h2
              · exact Or.inl hmem0
              · exact Or.inr h2
      · rw [if_neg hmem0]
        rw [ih (n0 :: usedNs) (idx + 1) k]
        constructor
        · rintro ⟨p, d, n, hget, hk, hnom, hmem⟩
          refine ⟨p + 1, d, n, ?_, by omega, hnom, ?_⟩
          · rw [List.getElem?_cons_succ]; exact hget
          · rw [hseen p]
            rcases hmem with h | h
            · rcases List.mem_cons.mp h with rfl | h2
              · exact Or.inr (List.mem_cons_self _ _)
              · exact Or.inl h2
            · exact Or.inr (List.mem_cons_of_mem n0 h)
        · rintro ⟨p, d, n, hget, hk, hnom, hmem⟩
          cases p with
          | zero =>
            rw [List.getElem?_cons_zero] at hget
            have : d0 = d := Option.some_injective _ hget
            subst this
            rw [hm] at hnom
            have : n0 = n := Option.some_injective _ hnom
            subst this
            rcases hmem with h | h
            · exact absurd h hmem0
            · simp [seenNamespaces] at h
          | succ q =>
            rw [List.getElem?_cons_succ] at hget
            rw [hseen q] at hmem
            refine ⟨q, d, n, hget, by omega, hnom, ?_⟩
            rcases hmem with h | h
            · exact Or.inl (List.mem_cons_of_mem n0 h)
            · rcases List.mem_cons.mp h with rfl | h2
              · exact Or.inl (List.mem_cons_self n usedNs)
              · exact Or.inr h2

lemma mem_seenNamespaces_take (ds : List UsingDirective) (i n : Nat) :
    n ∈ seenNamespaces (ds.take i) ↔
      ∃ j, j < i ∧ ∃ e, ds[j]? = some e ∧ nominatedInMainFile e = some n := by
  unfold seenNamespaces
  rw [List.mem_filterMap]
  constructor
  · rintro ⟨e, hmem, hnom⟩
    rw [List.mem_take_iff_getElem] at hmem
    obtain ⟨j, hj, hget⟩ := hmem
    have hj2 : j < i ∧ j < ds.length := lt_min_iff.mp hj
    refine ⟨j, hj2.1, e, ?_, hnom⟩
    exact List.getElem?_eq_some.mpr ⟨hj2.2, hget⟩
  · rintro ⟨j, hj, e, hget, hnom⟩
    obtain ⟨hlen, hget2⟩ := List.getElem?_eq_some.mp hget
    refine ⟨e, ?_, hnom⟩
    rw [List.mem_take_iff_getElem]
    exact ⟨j, lt_min_iff.mpr ⟨hj, hlen⟩, hget2⟩

/-- C6: a main-file using-directive nominating a namespace is removed by the
optimizer visitor exactly when an earlier main-file using-directive nominates
the same namespace: the first directive naming a namespace is kept and every
later directive naming it is deleted. -/
theorem usingDirective_removed_iff (ds : List UsingDirective) (i : Nat)
    (d : UsingDirective) (hd : ds[i]? = some d) (hmain : d.inMainFile = true)
    (n : Nat) (hn : d.nominated = some n) :
    i ∈ removedUsingDirectives ds ↔
      ∃ j, j < i ∧ ∃ e, ds[j]? = some e ∧ e.inMainFile = true ∧
        e.nominated = some n := by
  have hnom : nominatedInMainFile d = some n := by
    unfold nominatedInMainFile
    rw [hmain]
    simpa using hn
  unfold removedUsingDirectives
  rw [visitUD_mem_iff ds [] 0 i]
  constructor
  · rintro ⟨p, d2, n2, hget, hk, hnom2, hmem⟩
    have hp : p = i := by omega
    subst hp
    rw [hd] at hget
    have : d = d2 := Option.some_injective _ hget
    subst this
    rw [hnom] at hnom2
    have : n = n2 := Option.some_injective _ hnom2
    subst this
    rcases hmem with h | h
    · exact absurd h (List.not_mem_nil n)
    · rw [mem_seenNamespaces_take] at h
      obtain ⟨j, hj, e, hgete, hnome⟩ := h
      refine ⟨j, hj, e, hgete, ?_, ?_⟩
      · unfold nominatedInMainFile at hnome
        by_cases he : e.inMainFile = true
        · exact he
        · rw [if_neg ?_] at hnome
          · exact absurd hnome (Option.noConfusion)
          · intro hx; exact he (by rw [hx])
      · unfold nominatedInMainFile at hnome
        by_cases he : e.inMainFile = true
        · rw [if_pos ?_] at hnome
          · exact hnome
          · rw [he]
        · rw [if_neg ?_] at hnome
          · exact absurd hnome (Option.noConfusion)
          · intro hx; exact he (by rw [hx])
  · rintro ⟨j, hj, e, hgete, hmaine, hnome⟩
    refine ⟨i, d, n, hd, by omega, hnom, Or.inr ?_⟩
    rw [mem_seenNamespaces_take]
    refine ⟨j, hj, e, hgete, ?_⟩
    unfold nominatedInMainFile
    rw [hmaine]
    simpa using hnome

/-- Witness for usingDirective_removed_iff: of two main-file directives both
nominating namespace 5, the second (position 1) is removed. -/
theorem usingDirective_removed_iff_witness :
    1 ∈ removedUsingDirectives
      [⟨true, some 5⟩, ⟨true, some 5⟩] :=
  (usingDirective_removed_iff [⟨true, some 5⟩, ⟨true, some 5⟩] 1
      ⟨true, some 5⟩ rfl rfl 5 rfl).mpr
    ⟨0, by omega, ⟨true, some 5⟩, rfl, rfl, rfl⟩

end CaideInliner
